import Mathlib

/-!
# Verification of the generic binary heap (heap.c / heap.h)

Shallow embedding of the array-backed binary max-heap from `src/heap.c`.
The C heap stores `void *` elements in a dynamic buffer, with a
user-supplied comparator `heap_cmp_fn : (a, b) → int` (positive means `a`
outranks `b`).  We model:

* the element buffer's live prefix (`data[0 .. size)`) as a `List α`
  (so `size = data.length`; slots past the logical size hold garbage in C
  and are not modelled);
* the allocated capacity as a separate `Nat` field;
* the comparator as `cmp : α → α → Int`, stored in the structure as in C;
* machine integers (`size_t`, `ssize_t`) as `Nat` — all index arithmetic
  in the code stays far below any overflow boundary, and `parent` is only
  ever applied to positive indices;
* `NULL` heap handles as `Option (Heap α)` (wrappers suffixed `P`);
* allocation success/failure of `realloc`/`malloc` as an explicit boolean
  oracle parameter, since the C environment decides it.

Array reads `h->data[i]` become `hGet l i` (`List.getD` with a default);
every read performed by the code is in bounds whenever the heap is in a
state the code itself can produce, so the default is never consulted there.
-/

namespace HeapC

/-- `parent(i) = (i - 1) / 2` from heap.c (truncated nat division; the code
only applies it to `i ≥ 1`). -/
def parent (i : Nat) : Nat := (i - 1) / 2

/-- `left(i) = 2 i + 1` from heap.c. -/
def left (i : Nat) : Nat := 2 * i + 1

/-- `right(i) = 2 i + 2` from heap.c. -/
def right (i : Nat) : Nat := 2 * i + 2

variable {α : Type}

/-- Read `data[i]`: `List.getD` with the `Inhabited` default standing in for
the unspecified value of an out-of-bounds C read. -/
def hGet [Inhabited α] (l : List α) (i : Nat) : α := l.getD i default

/-- `swap(&data[i], &data[j])` from heap.c, on the list model. -/
def listSwap [Inhabited α] (l : List α) (i j : Nat) : List α :=
  (l.set i (hGet l j)).set j (hGet l i)

/-- The index `largest` computed by one iteration of `sift_down` in heap.c:
start from `i`, move to the left child if it exists and outranks, then to
the right child if it exists and outranks the current best. -/
def chooseLargest [Inhabited α] (cmp : α → α → Int) (l : List α) (i : Nat) : Nat :=
  let l1 := if left i < l.length ∧ 0 < cmp (hGet l (left i)) (hGet l i) then left i else i
  if right i < l.length ∧ 0 < cmp (hGet l (right i)) (hGet l l1) then right i else l1

theorem listSwap_length [Inhabited α] (l : List α) (i j : Nat) :
    (listSwap l i j).length = l.length := by
  simp [listSwap]

theorem chooseLargest_ne [Inhabited α] (cmp : α → α → Int) (l : List α) (i : Nat)
    (h : chooseLargest cmp l i ≠ i) :
    i < chooseLargest cmp l i ∧ chooseLargest cmp l i < l.length := by
  simp only [chooseLargest, left, right] at h ⊢
  by_cases h1 : 2 * i + 1 < l.length ∧ 0 < cmp (hGet l (2 * i + 1)) (hGet l i)
  · simp only [if_pos h1] at h ⊢
    by_cases h2 : 2 * i + 2 < l.length ∧ 0 < cmp (hGet l (2 * i + 2)) (hGet l (2 * i + 1))
    · simp only [if_pos h2] at h ⊢
      exact ⟨by omega, h2.1⟩
    · simp only [if_neg h2] at h ⊢
      exact ⟨by omega, h1.1⟩
  · simp only [if_neg h1] at h ⊢
    by_cases h2 : 2 * i + 2 < l.length ∧ 0 < cmp (hGet l (2 * i + 2)) (hGet l i)
    · simp only [if_pos h2] at h ⊢
      exact ⟨by omega, h2.1⟩
    · simp only [if_neg h2] at h ⊢
      exact absurd rfl h

/-- `sift_down` from heap.c: push the element at `i` down, swapping with the
outranking child, until no child outranks it. -/
def siftDown [Inhabited α] (cmp : α → α → Int) (l : List α) (i : Nat) : List α :=
  if h : chooseLargest cmp l i = i then l
  else siftDown cmp (listSwap l i (chooseLargest cmp l i)) (chooseLargest cmp l i)
termination_by l.length - i
decreasing_by
  rw [listSwap_length]
  have := chooseLargest_ne cmp l i h
  omega

/-- `sift_up` from heap.c: bubble the element at `i` up while it outranks its
parent. -/
def siftUp [Inhabited α] (cmp : α → α → Int) (l : List α) (i : Nat) : List α :=
  if h0 : 0 < i then
    if cmp (hGet l i) (hGet l (parent i)) ≤ 0 then l
    else siftUp cmp (listSwap l i (parent i)) (parent i)
  else l
termination_by i
decreasing_by
  have : (i - 1) / 2 ≤ i - 1 := Nat.div_le_self _ _
  simp only [parent]
  omega

/-- `struct Heap` from heap.c: the live prefix of `data`, the allocated
`capacity`, and the stored comparator.  `size` is `data.length`. -/
structure Heap (α : Type) where
  data : List α
  capacity : Nat
  cmp : α → α → Int

/-- `HEAP_DEFAULT_CAP` from heap.c. -/
def HEAP_DEFAULT_CAP : Nat := 16

/-- `heap_create` from heap.c, success path: empty heap with the requested
capacity (0 maps to the default).  The `!cmp` and allocation-failure paths
return `NULL` and produce no heap. -/
def heap_create (cmp : α → α → Int) (capacity : Nat) : Heap α :=
  { data := [], capacity := if capacity = 0 then HEAP_DEFAULT_CAP else capacity, cmp := cmp }

/-- The `for (i = n/2 - 1; i >= 0; i--) sift_down(h, i)` loop of `heap_build`:
`heapifyFrom cmp l k` sifts down at indices `k-1, k-2, …, 0` in that order. -/
def heapifyFrom [Inhabited α] (cmp : α → α → Int) (l : List α) : Nat → List α
  | 0 => l
  | k + 1 => heapifyFrom cmp (siftDown cmp l k) k

/-- `heap_build` from heap.c, success path: copy the `n` references, set
`size = capacity = n`, then bottom-up heapify from index `n/2 - 1` down to 0. -/
def heap_build [Inhabited α] (arr : List α) (cmp : α → α → Int) : Heap α :=
  { data := heapifyFrom cmp arr (arr.length / 2)
    capacity := arr.length
    cmp := cmp }

/-- `heap_reserve` from heap.c.  `allocOk` is the allocation oracle: whether
`realloc` would succeed if called.  Returns the C `int` result and the heap
after the call (`realloc` preserves the contents; on failure nothing is
touched and `-1` is returned). -/
def heap_reserve (allocOk : Bool) (h : Heap α) (n : Nat) : Int × Heap α :=
  if n ≤ h.capacity then (0, h)
  else if allocOk then (0, { h with capacity := n })
  else (-1, h)

/-- `heap_insert` from heap.c: grow by doubling when `size == capacity`
(propagating reserve failure as `-1` with the heap untouched), then write the
item at index `size` (an append to the live prefix), sift it up, and bump the
size. -/
def heap_insert [Inhabited α] (allocOk : Bool) (h : Heap α) (item : α) : Int × Heap α :=
  if h.data.length = h.capacity then
    let r := heap_reserve allocOk h (h.capacity * 2)
    if r.1 < 0 then (-1, r.2)
    else (0, { r.2 with data := siftUp r.2.cmp (r.2.data ++ [item]) r.2.data.length })
  else (0, { h with data := siftUp h.cmp (h.data ++ [item]) h.data.length })

/-- `heap_peek` from heap.c on a non-null handle: the root, or `NULL` when
empty. -/
def heap_peek [Inhabited α] (h : Heap α) : Option α :=
  if 0 < h.data.length then some (hGet h.data 0) else none

/-- `heap_extract` from heap.c on a non-null handle: on an empty heap return
`NULL`; otherwise save the root, move the last element into slot 0, shrink the
size by one, sift down from the root if anything remains, and return the saved
root together with the mutated heap. -/
def heap_extract [Inhabited α] (h : Heap α) : Option α × Heap α :=
  if h.data.length = 0 then (none, h)
  else
    let root := hGet h.data 0
    let l1 := (h.data.set 0 (hGet h.data (h.data.length - 1))).dropLast
    (some root, { h with data := if 0 < l1.length then siftDown h.cmp l1 0 else l1 })

/-- `heap_replace` from heap.c on a non-null handle: on an empty heap return
`NULL` and mutate nothing; otherwise overwrite the root with `item`, sift down,
and return the old root. -/
def heap_replace [Inhabited α] (h : Heap α) (item : α) : Option α × Heap α :=
  if h.data.length = 0 then (none, h)
  else (some (hGet h.data 0), { h with data := siftDown h.cmp (h.data.set 0 item) 0 })

/-- `heap_size` from heap.c on a non-null handle. -/
def heap_size (h : Heap α) : Nat := h.data.length

/-- `heap_clear` from heap.c on a non-null handle: `size = 0`, capacity kept. -/
def heap_clear (h : Heap α) : Heap α := { h with data := [] }

/-- `heap_validate` from heap.c on a non-null handle: scan indices
`1 .. size-1` and fail on any child that outranks its parent. -/
def heap_validate [Inhabited α] (h : Heap α) : Bool :=
  (List.range' 1 (h.data.length - 1)).all fun i =>
    !decide (0 < h.cmp (hGet h.data i) (hGet h.data (parent i)))

/-- `heap_clone` from heap.c, success path: a fresh heap via
`heap_create(h->cmp, h->capacity)` holding a copy of the live prefix. -/
def heap_clone (h : Heap α) : Heap α :=
  { data := h.data
    capacity := if h.capacity = 0 then HEAP_DEFAULT_CAP else h.capacity
    cmp := h.cmp }

/-! ### Nullable-handle wrappers

The C entry points take a possibly-`NULL` `Heap *`; each guards with `!h`
before touching the structure.  `none` models the `NULL` handle. -/

/-- `heap_peek` including its `h == NULL` guard (`(h && h->size > 0) ? … : NULL`). -/
def heap_peekP [Inhabited α] : Option (Heap α) → Option α
  | none => none
  | some h => heap_peek h

/-- `heap_extract` including its `!h` guard: on `NULL` it returns `NULL` and no
heap exists to mutate. -/
def heap_extractP [Inhabited α] : Option (Heap α) → Option α × Option (Heap α)
  | none => (none, none)
  | some h => ((heap_extract h).1, some (heap_extract h).2)

/-- `heap_replace` including its `!h` guard. -/
def heap_replaceP [Inhabited α] (h : Option (Heap α)) (item : α) : Option α × Option (Heap α) :=
  match h with
  | none => (none, none)
  | some h => ((heap_replace h item).1, some (heap_replace h item).2)

/-- `heap_size` including its `h ? … : 0` guard. -/
def heap_sizeP : Option (Heap α) → Nat
  | none => 0
  | some h => heap_size h

/-- `heap_validate` including its `if (!h) return false` guard. -/
def heap_validateP [Inhabited α] : Option (Heap α) → Bool
  | none => false
  | some h => heap_validate h

/-- `heap_clear` including its `if (h)` guard: a `NULL` handle is untouched. -/
def heap_clearP : Option (Heap α) → Option (Heap α)
  | none => none
  | some h => some (heap_clear h)

/-- `heap_destroy` from heap.c: frees storage (a no-op on this model's
observables); on `NULL` it returns immediately. -/
def heap_destroyP : Option (Heap α) → Unit
  | _ => ()

/-- The `for (size_t i = n; i-- > 0;) arr[i] = heap_extract(h);` loop of
`heap_sort`: write successive extracts into positions `k-1, …, 0` of `arr`.
A `NULL` extract (never hit when `k` equals the heap size) stores the default. -/
def sortLoop [Inhabited α] : Nat → Heap α → List α → List α
  | 0, _, arr => arr
  | k + 1, h, arr =>
    sortLoop k (heap_extract h).2 (arr.set k ((heap_extract h).1.getD default))

/-- `heap_sort` from heap.c: build a transient heap over the array and extract
repeatedly from the back; if `heap_build` returns `NULL` (`buildOk = false`),
return at once with the array untouched.  The C function returns `void`: the
final array is its only observable, so failure is unreported. -/
def heap_sort [Inhabited α] (buildOk : Bool) (arr : List α) (cmp : α → α → Int) : List α :=
  if buildOk then sortLoop arr.length (heap_build arr cmp) arr
  else arr

/-- The demo comparator of heap.c's test driver on `Int` values: positive when
`a > b` (max-heap).  The spec's §8.3 example uses the equivalent `a - b`. -/
def intCmp (a b : Int) : Int := a - b

/-! ### The comparator contract

§3 of the spec requires the comparator to induce a strict weak ordering
("positive if `a` has strictly higher priority than `b`" and so on).  The two
consequences the heap algorithms rest on are captured here: the complement
relation `cmp a b ≤ 0` ("`a` does not outrank `b`") is total and transitive —
exactly the statement that `cmp a b > 0` is a strict weak order. -/

/-- The comparator contract of §3/§6: `fun a b => cmp a b ≤ 0` is a total
transitive relation. -/
def CmpValid (cmp : α → α → Int) : Prop :=
  (∀ a b, cmp a b ≤ 0 ∨ cmp b a ≤ 0) ∧
  (∀ a b c, cmp a b ≤ 0 → cmp b c ≤ 0 → cmp a c ≤ 0)

theorem intCmp_valid : CmpValid intCmp := by
  refine ⟨fun a b => ?_, fun a b c h1 h2 => ?_⟩ <;> simp only [intCmp] at * <;> omega

theorem CmpValid.refl {cmp : α → α → Int} (hc : CmpValid cmp) (a : α) : cmp a a ≤ 0 :=
  (hc.1 a a).elim id id

theorem CmpValid.not_pos {cmp : α → α → Int} (hc : CmpValid cmp) {a b : α}
    (h : 0 < cmp a b) : cmp b a ≤ 0 :=
  (hc.1 a b).elim (fun h' => absurd h (by omega)) id

/-! ### Index and read/write lemmas -/

theorem parent_left (i : Nat) : parent (left i) = i := by
  simp only [parent, left]; omega

theorem parent_right (i : Nat) : parent (right i) = i := by
  simp only [parent, right]; omega

theorem parent_lt {i : Nat} (h : 1 ≤ i) : parent i < i := by
  have := Nat.div_le_self (i - 1) 2
  simp only [parent]; omega

/-- The children of `i` are exactly `left i` and `right i`. -/
theorem eq_child_of_parent_eq {i j : Nat} (h1 : 1 ≤ j) (h : parent j = i) :
    j = left i ∨ j = right i := by
  simp only [parent] at h
  simp only [left, right]
  omega

theorem hGet_eq_getElem [Inhabited α] (l : List α) {i : Nat} (hi : i < l.length) :
    hGet l i = l[i] :=
  List.getD_eq_getElem l default hi

theorem hGet_append_lt [Inhabited α] (l l' : List α) {i : Nat} (hi : i < l.length) :
    hGet (l ++ l') i = hGet l i := by
  simp [hGet, List.getD_eq_getElem?_getD, List.getElem?_append_left hi]

theorem hGet_set_self [Inhabited α] (l : List α) {i : Nat} (x : α) (hi : i < l.length) :
    hGet (l.set i x) i = x := by
  simp [hGet, List.getD_eq_getElem?_getD, List.getElem?_set_self hi]

theorem hGet_set_ne [Inhabited α] (l : List α) {i j : Nat} (x : α) (hij : i ≠ j) :
    hGet (l.set i x) j = hGet l j := by
  simp [hGet, List.getD_eq_getElem?_getD, List.getElem?_set_ne hij]

theorem hGet_listSwap_fst [Inhabited α] (l : List α) {i j : Nat} (hij : i ≠ j)
    (hi : i < l.length) : hGet (listSwap l i j) i = hGet l j := by
  rw [listSwap, hGet_set_ne _ _ (Ne.symm hij), hGet_set_self _ _ hi]

theorem hGet_listSwap_snd [Inhabited α] (l : List α) {i j : Nat} (hj : j < l.length) :
    hGet (listSwap l i j) j = hGet l i := by
  rw [listSwap, hGet_set_self]
  simpa using hj

theorem hGet_listSwap_other [Inhabited α] (l : List α) {i j k : Nat}
    (hki : k ≠ i) (hkj : k ≠ j) : hGet (listSwap l i j) k = hGet l k := by
  rw [listSwap, hGet_set_ne _ _ (Ne.symm hkj), hGet_set_ne _ _ (Ne.symm hki)]

theorem hGet_cons_succ [Inhabited α] (x : α) (l : List α) (k : Nat) :
    hGet (x :: l) (k + 1) = hGet l k := by
  simp [hGet]

theorem hGet_cons_zero [Inhabited α] (x : α) (l : List α) :
    hGet (x :: l) 0 = x := rfl

/-! ### Swapping is a permutation -/

/-- Pulling the element at index `k` to the front while overwriting its slot
permutes the list with the new element consed on. -/
theorem get_cons_set_perm [Inhabited α] :
    ∀ (l : List α) (k : Nat) (x : α), k < l.length →
      List.Perm (hGet l k :: l.set k x) (x :: l)
  | y :: ys, 0, x, _ => by
    simpa [hGet] using List.Perm.swap x y ys
  | y :: ys, k + 1, x, hk => by
    have ih := get_cons_set_perm ys k x (by simpa using hk)
    have h1 : hGet (y :: ys) (k + 1) :: (y :: ys).set (k + 1) x
        = hGet ys k :: y :: ys.set k x := by rw [hGet_cons_succ]; rfl
    rw [h1]
    exact (List.Perm.swap y (hGet ys k) _).trans ((ih.cons y).trans (List.Perm.swap x y ys))

/-- Swapping two in-range slots permutes the list. -/
theorem listSwap_perm [Inhabited α] :
    ∀ (l : List α) (i j : Nat), i < j → j < l.length →
      List.Perm (listSwap l i j) l
  | y :: ys, 0, j + 1, _, hj => by
    have h := get_cons_set_perm ys j y (by simpa using hj)
    simpa [listSwap, hGet, List.getD_cons_succ] using h
  | y :: ys, i + 1, j + 1, hij, hj => by
    have ih := listSwap_perm ys i j (by omega) (by simpa using hj)
    have hstep : listSwap (y :: ys) (i + 1) (j + 1) = y :: listSwap ys i j := by
      simp [listSwap, hGet]
    rw [hstep]
    exact ih.cons y

/-- Swapping in either argument order permutes the list. -/
theorem listSwap_perm_of_ne [Inhabited α] (l : List α) {i j : Nat} (hij : i ≠ j)
    (hi : i < l.length) (hj : j < l.length) : List.Perm (listSwap l i j) l := by
  rcases Nat.lt_or_ge i j with h | h
  · exact listSwap_perm l i j h hj
  · have hji : j < i := by omega
    have : listSwap l i j = listSwap l j i := by
      simp only [listSwap]
      rw [List.set_comm _ _ _ hij]
    rw [this]
    exact listSwap_perm l j i hji hi

/-! ### The heap-property invariant (spec §3 / §8.1) -/

/-- Spec §3: for every index `i` with `1 ≤ i < size`,
`compare(element[i], element[parent(i)]) ≤ 0`. -/
def heapProp [Inhabited α] (cmp : α → α → Int) (l : List α) : Prop :=
  ∀ j, 1 ≤ j → j < l.length → cmp (hGet l j) (hGet l (parent j)) ≤ 0

/-- The partially-heapified region of Floyd's algorithm: every parent/child
edge whose parent index is at least `k` is ordered. -/
def heapFrom [Inhabited α] (cmp : α → α → Int) (l : List α) (k : Nat) : Prop :=
  ∀ j, 1 ≤ j → j < l.length → k ≤ parent j → cmp (hGet l j) (hGet l (parent j)) ≤ 0

theorem heapFrom_zero_iff [Inhabited α] {cmp : α → α → Int} {l : List α} :
    heapFrom cmp l 0 ↔ heapProp cmp l := by
  constructor
  · exact fun h j h1 h2 => h j h1 h2 (Nat.zero_le _)
  · exact fun h j h1 h2 _ => h j h1 h2

/-- No edge has its parent at or beyond `length / 2`, so the region
`heapFrom l (length / 2)` is trivially ordered — the starting point of
`heap_build`'s loop. -/
theorem heapFrom_half [Inhabited α] (cmp : α → α → Int) (l : List α) :
    heapFrom cmp l (l.length / 2) := by
  intro j hj1 hjlen hpj
  exfalso
  simp only [parent] at hpj
  omega

/-! ### What `sift_down`'s child selection guarantees -/

/-- If the `sift_down` loop stops at `i`, neither existing child outranks
the element at `i`. -/
theorem chooseLargest_eq_bounds [Inhabited α] {cmp : α → α → Int} {l : List α} {i : Nat}
    (h : chooseLargest cmp l i = i) :
    (left i < l.length → cmp (hGet l (left i)) (hGet l i) ≤ 0) ∧
    (right i < l.length → cmp (hGet l (right i)) (hGet l i) ≤ 0) := by
  simp only [chooseLargest] at h
  by_cases h1 : left i < l.length ∧ 0 < cmp (hGet l (left i)) (hGet l i)
  · exfalso
    simp only [if_pos h1] at h
    split at h <;> simp only [left, right] at h <;> omega
  · simp only [if_neg h1] at h
    by_cases h2 : right i < l.length ∧ 0 < cmp (hGet l (right i)) (hGet l i)
    · exfalso
      simp only [if_pos h2] at h
      simp only [right] at h
      omega
    · constructor
      · intro hl
        rcases Decidable.not_and_iff_or_not.mp h1 with h' | h'
        · exact absurd hl h'
        · omega
      · intro hr
        rcases Decidable.not_and_iff_or_not.mp h2 with h' | h'
        · exact absurd hr h'
        · omega

/-- If the `sift_down` loop swaps, the chosen index is an existing child that
strictly outranks `i`, and the other child (when present) does not outrank
the chosen one. -/
theorem chooseLargest_spec_ne [Inhabited α] {cmp : α → α → Int} (hc : CmpValid cmp)
    {l : List α} {i : Nat} (h : chooseLargest cmp l i ≠ i) :
    (chooseLargest cmp l i = left i ∨ chooseLargest cmp l i = right i) ∧
    0 < cmp (hGet l (chooseLargest cmp l i)) (hGet l i) ∧
    (∀ j, (j = left i ∨ j = right i) → j < l.length → j ≠ chooseLargest cmp l i →
      cmp (hGet l j) (hGet l (chooseLargest cmp l i)) ≤ 0) := by
  simp only [chooseLargest] at h ⊢
  by_cases h1 : left i < l.length ∧ 0 < cmp (hGet l (left i)) (hGet l i)
  · simp only [if_pos h1] at h ⊢
    by_cases h2 : right i < l.length ∧ 0 < cmp (hGet l (right i)) (hGet l (left i))
    · simp only [if_pos h2] at h ⊢
      refine ⟨by simp, ?_, ?_⟩
      · by_contra hcon
        have ht := hc.not_pos h1.2
        have := hc.2 _ _ _ (by omega : cmp (hGet l (right i)) (hGet l i) ≤ 0) ht
        omega
      · intro j hj _ hjne
        rcases hj with rfl | rfl
        · exact hc.not_pos h2.2
        · exact absurd rfl hjne
    · simp only [if_neg h2] at h ⊢
      refine ⟨by simp, h1.2, ?_⟩
      intro j hj hjlen hjne
      rcases hj with rfl | rfl
      · exact absurd rfl hjne
      · rcases Decidable.not_and_iff_or_not.mp h2 with h' | h'
        · exact absurd hjlen h'
        · omega
  · simp only [if_neg h1] at h ⊢
    by_cases h2 : right i < l.length ∧ 0 < cmp (hGet l (right i)) (hGet l i)
    · simp only [if_pos h2] at h ⊢
      refine ⟨by simp, h2.2, ?_⟩
      intro j hj hjlen hjne
      rcases hj with rfl | rfl
      · have hlle : cmp (hGet l (left i)) (hGet l i) ≤ 0 := by
          rcases Decidable.not_and_iff_or_not.mp h1 with h' | h'
          · exact absurd hjlen h'
          · omega
        exact hc.2 _ _ _ hlle (hc.not_pos h2.2)
      · exact absurd rfl hjne
    · simp only [if_neg h2] at h
      exact absurd rfl h

/-! ### `sift_down` preserves length and content -/

theorem siftDown_length [Inhabited α] (cmp : α → α → Int) (l : List α) (i : Nat) :
    (siftDown cmp l i).length = l.length := by
  induction l, i using siftDown.induct cmp with
  | case1 l i h => rw [siftDown, dif_pos h]
  | case2 l i h ih =>
    rw [siftDown, dif_neg h, ih, listSwap_length]

theorem siftDown_perm [Inhabited α] (cmp : α → α → Int) (l : List α) (i : Nat) :
    List.Perm (siftDown cmp l i) l := by
  induction l, i using siftDown.induct cmp with
  | case1 l i h => rw [siftDown, dif_pos h]
  | case2 l i h ih =>
    rw [siftDown, dif_neg h]
    have hb := chooseLargest_ne cmp l i h
    exact ih.trans (listSwap_perm_of_ne l (by omega) (by omega) hb.2)

/-! ### The `sift_down` correctness invariant

During the descent every edge in the region is ordered except possibly the
edges into the current hole `i`, and the hole's children fit below the hole's
parent (so the element moved up by the last swap is in place). -/

structure SiftDownInv [Inhabited α] (cmp : α → α → Int) (l : List α) (K i : Nat) : Prop where
  ordered : ∀ j, 1 ≤ j → j < l.length → K ≤ parent j → parent j ≠ i →
      cmp (hGet l j) (hGet l (parent j)) ≤ 0
  holeChildren : ∀ j, 1 ≤ j → j < l.length → parent j = i → 1 ≤ i → K ≤ parent i →
      cmp (hGet l j) (hGet l (parent i)) ≤ 0

/-- Main `sift_down` lemma: from the hole invariant, the sifted list has every
edge with parent index ≥ `K` ordered. -/
theorem siftDown_heapFrom [Inhabited α] {cmp : α → α → Int} (hc : CmpValid cmp)
    (l : List α) (i : Nat) :
    ∀ K, K ≤ i → SiftDownInv cmp l K i → heapFrom cmp (siftDown cmp l i) K := by
  induction l, i using siftDown.induct cmp with
  | case1 l i h =>
    intro K _ inv
    rw [siftDown, dif_pos h]
    intro j hj1 hjlen hKpj
    by_cases hpji : parent j = i
    · rcases eq_child_of_parent_eq hj1 hpji with rfl | rfl
      · rw [parent_left] at hpji ⊢
        exact (chooseLargest_eq_bounds h).1 hjlen
      · rw [parent_right] at hpji ⊢
        exact (chooseLargest_eq_bounds h).2 hjlen
    · exact inv.ordered j hj1 hjlen hKpj hpji
  | case2 l i h ih =>
    intro K hK inv
    rw [siftDown, dif_neg h]
    have hb := chooseLargest_ne cmp l i h
    obtain ⟨hic, hclen⟩ := hb
    obtain ⟨hcc, hpos, hsib⟩ := chooseLargest_spec_ne hc h
    set c := chooseLargest cmp l i with hcdef
    have hilen : i < l.length := lt_trans hic hclen
    have hpc : parent c = i := by
      rcases hcc with hcl | hcr
      · rw [hcl, parent_left]
      · rw [hcr, parent_right]
    have hlen' : (listSwap l i c).length = l.length := listSwap_length l i c
    have Ri : hGet (listSwap l i c) i = hGet l c :=
      hGet_listSwap_fst l (by omega) hilen
    have Rc : hGet (listSwap l i c) c = hGet l i :=
      hGet_listSwap_snd l hclen
    refine ih K (by omega) ⟨?_, ?_⟩
    · intro j hj1 hjlen' hKpj hpjc
      rw [hlen'] at hjlen'
      by_cases hpji : parent j = i
      · by_cases hjc : j = c
        · subst hjc
          rw [hpc, Ri, Rc]
          exact hc.not_pos hpos
        · have hji : j ≠ i := by
            rcases eq_child_of_parent_eq hj1 hpji with rfl | rfl
            · simp only [left]; omega
            · simp only [right]; omega
          rw [hpji, Ri, hGet_listSwap_other l hji hjc]
          exact hsib j (eq_child_of_parent_eq hj1 hpji) hjlen' hjc
      · by_cases hji : j = i
        · subst hji
          have hpjlt : parent j < j := parent_lt hj1
          rw [Ri, hGet_listSwap_other l (by omega) (by omega)]
          exact inv.holeChildren c (by omega) hclen hpc hj1 hKpj
        · have hjc : j ≠ c := fun heq => hpji (heq ▸ hpc)
          rw [hGet_listSwap_other l hji hjc,
            hGet_listSwap_other l hpji hpjc]
          exact inv.ordered j hj1 hjlen' hKpj hpji
    · intro j hj1 hjlen' hpjc hc1 hKpc
      rw [hlen'] at hjlen'
      have hjgt : c < j := by
        rcases eq_child_of_parent_eq hj1 hpjc with rfl | rfl
        · simp only [left]; omega
        · simp only [right]; omega
      rw [hpc, Ri, hGet_listSwap_other l (by omega) (by omega)]
      have hres := inv.ordered j hj1 hjlen' (by omega) (by rw [hpjc]; omega)
      rwa [hpjc] at hres

/-! ### Floyd's bottom-up heapify (the `heap_build` loop) -/

theorem heapifyFrom_length [Inhabited α] (cmp : α → α → Int) :
    ∀ (k : Nat) (l : List α), (heapifyFrom cmp l k).length = l.length
  | 0, _ => rfl
  | k + 1, l => by
    rw [heapifyFrom, heapifyFrom_length cmp k, siftDown_length]

theorem heapifyFrom_perm [Inhabited α] (cmp : α → α → Int) :
    ∀ (k : Nat) (l : List α), List.Perm (heapifyFrom cmp l k) l
  | 0, _ => List.Perm.refl _
  | k + 1, l =>
    (heapifyFrom_perm cmp k _).trans (siftDown_perm cmp l k)

theorem heapifyFrom_heapProp [Inhabited α] {cmp : α → α → Int} (hc : CmpValid cmp) :
    ∀ (k : Nat) (l : List α), heapFrom cmp l k → heapProp cmp (heapifyFrom cmp l k)
  | 0, l, hf => heapFrom_zero_iff.mp hf
  | k + 1, l, hf => by
    rw [heapifyFrom]
    refine heapifyFrom_heapProp hc k _ ?_
    have hs : heapFrom cmp (siftDown cmp l k) k := by
      refine siftDown_heapFrom hc l k k (le_refl k) ⟨?_, ?_⟩
      · intro j hj1 hjlen hKpj hpjk
        exact hf j hj1 hjlen (by omega)
      · intro j hj1 hjlen hpjk hk1 hKpk
        exfalso
        have := parent_lt hk1
        omega
    intro j hj1 hjlen hKpj
    exact hs j hj1 hjlen hKpj

/-- `heap_build` establishes the heap property (spec §8.4 via §8.1). -/
theorem heap_build_heapProp [Inhabited α] {cmp : α → α → Int} (hc : CmpValid cmp)
    (arr : List α) : heapProp cmp (heap_build arr cmp).data :=
  heapifyFrom_heapProp hc _ arr (heapFrom_half cmp arr)

theorem heap_build_length [Inhabited α] (arr : List α) (cmp : α → α → Int) :
    (heap_build arr cmp).data.length = arr.length :=
  heapifyFrom_length cmp _ arr

theorem heap_build_perm [Inhabited α] (arr : List α) (cmp : α → α → Int) :
    List.Perm (heap_build arr cmp).data arr :=
  heapifyFrom_perm cmp _ arr

/-! ### `sift_up` preserves length and content -/

theorem siftUp_length [Inhabited α] (cmp : α → α → Int) (l : List α) (i : Nat) :
    (siftUp cmp l i).length = l.length := by
  induction l, i using siftUp.induct cmp with
  | case1 l i hi hle => rw [siftUp, dif_pos hi, if_pos hle]
  | case2 l i hi hgt ih =>
    rw [siftUp, dif_pos hi, if_neg hgt, ih, listSwap_length]
  | case3 l i hi => rw [siftUp, dif_neg hi]

theorem siftUp_perm [Inhabited α] (cmp : α → α → Int) (l : List α) (i : Nat) :
    i < l.length → List.Perm (siftUp cmp l i) l := by
  induction l, i using siftUp.induct cmp with
  | case1 l i hi hle =>
    intro _
    rw [siftUp, dif_pos hi, if_pos hle]
  | case2 l i hi hgt ih =>
    intro hlen
    rw [siftUp, dif_pos hi, if_neg hgt]
    have hp : parent i < i := parent_lt hi
    have h1 := ih (by rw [listSwap_length]; omega)
    exact h1.trans (listSwap_perm_of_ne l (by omega) hlen (by omega))
  | case3 l i hi =>
    intro _
    rw [siftUp, dif_neg hi]

/-! ### The `sift_up` correctness invariant

Every edge is ordered except possibly the one from the hole `i` to its
parent, and the hole's children fit below the hole's parent (so the parent
may safely move down into the hole). -/

structure SiftUpInv [Inhabited α] (cmp : α → α → Int) (l : List α) (i : Nat) : Prop where
  bounded : i < l.length
  ordered : ∀ j, 1 ≤ j → j < l.length → j ≠ i →
      cmp (hGet l j) (hGet l (parent j)) ≤ 0
  holeChildren : ∀ j, 1 ≤ j → j < l.length → parent j = i → 1 ≤ i →
      cmp (hGet l j) (hGet l (parent i)) ≤ 0

/-- Main `sift_up` lemma: from the hole invariant the bubbled-up list
satisfies the heap property. -/
theorem siftUp_heapProp [Inhabited α] {cmp : α → α → Int} (hc : CmpValid cmp)
    (l : List α) (i : Nat) :
    SiftUpInv cmp l i → heapProp cmp (siftUp cmp l i) := by
  induction l, i using siftUp.induct cmp with
  | case1 l i hi hle =>
    intro inv
    rw [siftUp, dif_pos hi, if_pos hle]
    intro j hj1 hjlen
    by_cases hji : j = i
    · subst hji; exact hle
    · exact inv.ordered j hj1 hjlen hji
  | case2 l i hi hgt ih =>
    intro inv
    rw [siftUp, dif_pos hi, if_neg hgt]
    have hp : parent i < i := parent_lt hi
    have hilen : i < l.length := inv.bounded
    have hplen : parent i < l.length := by omega
    have hlen' : (listSwap l i (parent i)).length = l.length := listSwap_length _ _ _
    have Ri : hGet (listSwap l i (parent i)) i = hGet l (parent i) :=
      hGet_listSwap_fst l (by omega) hilen
    have Rp : hGet (listSwap l i (parent i)) (parent i) = hGet l i :=
      hGet_listSwap_snd l hplen
    have hswap : cmp (hGet l (parent i)) (hGet l i) ≤ 0 := hc.not_pos (by omega)
    refine ih ⟨by omega, ?_, ?_⟩
    · intro j hj1 hjlen' hjp
      rw [hlen'] at hjlen'
      by_cases hji : j = i
      · subst hji
        rw [Ri, Rp]
        exact hswap
      · by_cases hpji : parent j = i
        · have hjgti : i < j := by
            rcases eq_child_of_parent_eq hj1 hpji with rfl | rfl
            · simp only [left]; omega
            · simp only [right]; omega
          rw [hpji, Ri, hGet_listSwap_other l (by omega) (by omega)]
          exact inv.holeChildren j hj1 hjlen' hpji hi
        · by_cases hpjp : parent j = parent i
          · have hjgtp : parent i < j := by
              have := parent_lt hj1
              omega
            rw [hpjp, Rp, hGet_listSwap_other l hji (by omega)]
            have h1 := inv.ordered j hj1 hjlen' hji
            rw [hpjp] at h1
            exact hc.2 _ _ _ h1 hswap
          · rw [hGet_listSwap_other l hji hjp,
              hGet_listSwap_other l hpji hpjp]
            exact inv.ordered j hj1 hjlen' hji
    · intro j hj1 hjlen' hpj hp1
      rw [hlen'] at hjlen'
      have hpplt : parent (parent i) < parent i := parent_lt hp1
      rw [hGet_listSwap_other l (show parent (parent i) ≠ i by omega) (by omega)]
      have hple : cmp (hGet l (parent i)) (hGet l (parent (parent i))) ≤ 0 :=
        inv.ordered (parent i) hp1 hplen (by omega)
      by_cases hji : j = i
      · subst hji
        rw [Ri]
        exact hple
      · have hjgt : parent i < j := by
          have := parent_lt hj1
          omega
        rw [hGet_listSwap_other l hji (by omega)]
        have h1 := inv.ordered j hj1 hjlen' hji
        rw [hpj] at h1
        exact hc.2 _ _ _ h1 hple
  | case3 l i hi =>
    intro inv
    rw [siftUp, dif_neg hi]
    intro j hj1 hjlen
    exact inv.ordered j hj1 hjlen (by omega)

/-- Appending a new element at index `size` and sifting it up restores the
heap property — the core of `heap_insert`. -/
theorem siftUp_append_heapProp [Inhabited α] {cmp : α → α → Int} (hc : CmpValid cmp)
    (l : List α) (x : α) (hh : heapProp cmp l) :
    heapProp cmp (siftUp cmp (l ++ [x]) l.length) := by
  refine siftUp_heapProp hc _ _ ⟨by simp, ?_, ?_⟩
  · intro j hj1 hjlen hji
    have hjlt : j < l.length := by
      simp only [List.length_append, List.length_cons, List.length_nil] at hjlen
      omega
    have hpj : parent j < l.length := by
      have := parent_lt hj1
      omega
    rw [hGet_append_lt l [x] hjlt, hGet_append_lt l [x] hpj]
    exact hh j hj1 hjlt
  · intro j hj1 hjlen hpj _
    exfalso
    simp only [List.length_append, List.length_cons, List.length_nil] at hjlen
    simp only [parent] at hpj
    omega

/-! ### `heap_insert`: case analysis and preservation -/

/-- `heap_insert` either succeeds — returning 0 with the item appended at
index `size` and sifted up, the rest of the heap intact — or fails returning
`-1` with the heap exactly as it was. -/
theorem heap_insert_cases [Inhabited α] (ok : Bool) (h : Heap α) (x : α) :
    ((heap_insert ok h x).1 = 0 ∧
      (heap_insert ok h x).2.data = siftUp h.cmp (h.data ++ [x]) h.data.length ∧
      (heap_insert ok h x).2.cmp = h.cmp) ∨
    heap_insert ok h x = (-1, h) := by
  by_cases hsz : h.data.length = h.capacity
  · by_cases hcap : h.capacity * 2 ≤ h.capacity
    · left
      simp [heap_insert, heap_reserve, hsz, hcap]
    · by_cases hok : ok = true
      · left
        simp [heap_insert, heap_reserve, hsz, hcap, hok]
      · right
        simp only [Bool.not_eq_true] at hok
        simp [heap_insert, heap_reserve, hsz, hcap, hok]
  · left
    simp [heap_insert, hsz]

theorem heap_insert_heapProp [Inhabited α] (h : Heap α) (hc : CmpValid h.cmp)
    (ok : Bool) (x : α) (hh : heapProp h.cmp h.data) :
    heapProp h.cmp (heap_insert ok h x).2.data := by
  rcases heap_insert_cases ok h x with ⟨_, hdata, _⟩ | hfail
  · rw [hdata]
    exact siftUp_append_heapProp hc h.data x hh
  · rw [hfail]
    exact hh

theorem heap_insert_cmp [Inhabited α] (ok : Bool) (h : Heap α) (x : α) :
    (heap_insert ok h x).2.cmp = h.cmp := by
  rcases heap_insert_cases ok h x with ⟨_, _, hcmp⟩ | hfail
  · exact hcmp
  · rw [hfail]

/-! ### Reads in the shrunken array of `heap_extract` -/

theorem hGet_take [Inhabited α] (l : List α) {m k : Nat} (hk : k < m) :
    hGet (l.take m) k = hGet l k := by
  simp [hGet, List.getD_eq_getElem?_getD, List.getElem?_take, hk]

theorem hGet_set_dropLast [Inhabited α] (l : List α) (b : α) {k : Nat}
    (hk1 : 1 ≤ k) (hk : k < l.length - 1) :
    hGet ((l.set 0 b).dropLast) k = hGet l k := by
  rw [List.dropLast_eq_take, List.length_set, hGet_take _ hk,
    hGet_set_ne _ _ (by omega)]

/-! ### `heap_extract`: specification and preservation -/

/-- Moving the last element into slot 0 and dropping the final slot keeps
exactly the non-root elements: consing the root back on recovers the original
multiset. -/
theorem set_last_dropLast_perm [Inhabited α] (l : List α) (hne : l ≠ []) :
    List.Perm (hGet l 0 :: (l.set 0 (hGet l (l.length - 1))).dropLast) l := by
  rcases l with _ | ⟨a, rest⟩
  · exact absurd rfl hne
  · rcases eq_or_ne rest [] with rfl | hrest
    · simp [hGet]
    · have hga : hGet (a :: rest) 0 = a := rfl
      have hlast : hGet (a :: rest) ((a :: rest).length - 1)
          = rest.getLast hrest := by
        have hlen2 : (a :: rest).length - 1 = rest.length - 1 + 1 := by
          simp only [List.length_cons]
          have := List.length_pos.mpr hrest
          omega
        rw [hlen2, hGet_cons_succ, List.getLast_eq_getElem,
          hGet_eq_getElem rest (by have := List.length_pos.mpr hrest; omega)]
      have hset : (a :: rest).set 0 (rest.getLast hrest)
          = rest.getLast hrest :: rest := rfl
      rw [hga, hlast, hset, List.dropLast_cons_of_ne_nil hrest]
      refine List.Perm.cons a ?_
      have h1 : List.Perm (rest.getLast hrest :: rest.dropLast)
          (rest.dropLast ++ [rest.getLast hrest]) :=
        (List.perm_append_singleton _ _).symm
      rw [List.dropLast_append_getLast hrest] at h1
      exact h1

/-- On a non-empty heap, `heap_extract` returns the root, shrinks the size by
one, and keeps exactly the other elements (as a multiset); capacity and
comparator are untouched. -/
theorem heap_extract_spec [Inhabited α] (h : Heap α) (hne : h.data ≠ []) :
    (heap_extract h).1 = some (hGet h.data 0) ∧
    (heap_extract h).2.data.length = h.data.length - 1 ∧
    List.Perm (hGet h.data 0 :: (heap_extract h).2.data) h.data ∧
    (heap_extract h).2.cmp = h.cmp ∧
    (heap_extract h).2.capacity = h.capacity := by
  have hlen : ¬ h.data.length = 0 := by simpa [List.length_eq_zero] using hne
  have hl1len : ((h.data.set 0 (hGet h.data (h.data.length - 1))).dropLast).length
      = h.data.length - 1 := by
    rw [List.length_dropLast, List.length_set]
  have hl1perm := set_last_dropLast_perm h.data hne
  refine ⟨?_, ?_, ?_, ?_, ?_⟩
  · simp [heap_extract, hlen]
  · simp only [heap_extract, if_neg hlen]
    split
    · rw [siftDown_length, hl1len]
    · exact hl1len
  · simp only [heap_extract, if_neg hlen]
    split
    · exact ((siftDown_perm _ _ _).cons _).trans hl1perm
    · exact hl1perm
  · simp [heap_extract, hlen]
  · simp [heap_extract, hlen]

theorem heap_extract_heapProp [Inhabited α] {h : Heap α} (hc : CmpValid h.cmp)
    (hh : heapProp h.cmp h.data) :
    heapProp h.cmp (heap_extract h).2.data := by
  by_cases hlen : h.data.length = 0
  · simp only [heap_extract, if_pos hlen]
    exact hh
  · simp only [heap_extract, if_neg hlen]
    split
    · rename_i hpos
      refine heapFrom_zero_iff.mp
        (siftDown_heapFrom hc _ 0 0 (le_refl 0) ⟨?_, ?_⟩)
      · intro j hj1 hjlen hK hpj0
        have hjb : j < h.data.length - 1 := by
          rw [List.length_dropLast, List.length_set] at hjlen
          omega
        have hpj1 : 1 ≤ parent j := by omega
        have hpjb : parent j < h.data.length - 1 := by
          have := parent_lt hj1
          omega
        rw [hGet_set_dropLast _ _ hj1 hjb, hGet_set_dropLast _ _ hpj1 hpjb]
        exact hh j hj1 (by omega)
      · intro j hj1 hjlen hpj h0
        exact absurd h0 (by omega)
    · intro j hj1 hjlen
      exfalso
      rename_i hnpos
      omega

/-! ### `heap_replace`: specification and preservation -/

theorem heap_replace_spec [Inhabited α] (h : Heap α) (x : α) (hne : h.data ≠ []) :
    (heap_replace h x).1 = some (hGet h.data 0) ∧
    (heap_replace h x).2.data.length = h.data.length ∧
    List.Perm (heap_replace h x).2.data (h.data.set 0 x) ∧
    (heap_replace h x).2.cmp = h.cmp ∧
    (heap_replace h x).2.capacity = h.capacity := by
  have hlen : ¬ h.data.length = 0 := by simpa [List.length_eq_zero] using hne
  refine ⟨by simp [heap_replace, hlen], ?_, ?_, by simp [heap_replace, hlen],
    by simp [heap_replace, hlen]⟩
  · simp only [heap_replace, if_neg hlen]
    rw [siftDown_length, List.length_set]
  · simp only [heap_replace, if_neg hlen]
    exact siftDown_perm _ _ _

theorem heap_replace_heapProp [Inhabited α] {h : Heap α} (hc : CmpValid h.cmp)
    (x : α) (hh : heapProp h.cmp h.data) :
    heapProp h.cmp (heap_replace h x).2.data := by
  by_cases hlen : h.data.length = 0
  · simp only [heap_replace, if_pos hlen]
    exact hh
  · simp only [heap_replace, if_neg hlen]
    refine heapFrom_zero_iff.mp
      (siftDown_heapFrom hc _ 0 0 (le_refl 0) ⟨?_, ?_⟩)
    · intro j hj1 hjlen hK hpj0
      rw [List.length_set] at hjlen
      rw [hGet_set_ne _ _ (by omega), hGet_set_ne _ _ (by omega)]
      exact hh j hj1 hjlen
    · intro j hj1 hjlen hpj h0
      exact absurd h0 (by omega)

/-! ### The root is a maximum (spec: "Root: … always the highest-priority
element under the comparator") -/

theorem heapProp_root_max [Inhabited α] {cmp : α → α → Int} (hc : CmpValid cmp)
    {l : List α} (hh : heapProp cmp l) :
    ∀ j, j < l.length → cmp (hGet l j) (hGet l 0) ≤ 0 := by
  intro j
  induction j using Nat.strong_induction_on with
  | _ j ih =>
    intro hjlen
    rcases Nat.eq_zero_or_pos j with rfl | hj1
    · exact hc.refl _
    · have hpj : parent j < j := parent_lt hj1
      exact hc.2 _ _ _ (hh j hj1 hjlen) (ih (parent j) hpj (by omega))

/-! ### `heap_validate` decides the heap property -/

theorem heap_validate_iff [Inhabited α] (h : Heap α) :
    heap_validate h = true ↔ heapProp h.cmp h.data := by
  simp only [heap_validate, List.all_eq_true, heapProp]
  constructor
  · intro hv j hj1 hjlen
    have hmem : j ∈ List.range' 1 (h.data.length - 1) :=
      List.mem_range'_1.mpr (by omega)
    have := hv j hmem
    simp only [Bool.not_eq_eq_eq_not, Bool.not_true, decide_eq_false_iff_not,
      not_lt] at this
    exact this
  · intro hp j hmem
    have hj := List.mem_range'_1.mp hmem
    simp only [Bool.not_eq_eq_eq_not, Bool.not_true, decide_eq_false_iff_not,
      not_lt]
    exact hp j (by omega) (by omega)

/-! ### Repeated extraction (`while (heap_size(h)) heap_extract(h)`) -/

/-- The sequence of elements produced by extracting until the heap is empty. -/
def extractAll [Inhabited α] (h : Heap α) : List α :=
  if hlen : h.data.length = 0 then []
  else (heap_extract h).1.getD default :: extractAll (heap_extract h).2
termination_by h.data.length
decreasing_by
  have hspec := (heap_extract_spec h (fun he => hlen (by rw [he]; rfl))).2.1
  omega

/-- Extracting until empty enumerates exactly the heap's elements. -/
theorem extractAll_perm [Inhabited α] (h : Heap α) :
    List.Perm (extractAll h) h.data := by
  by_cases hlen : h.data.length = 0
  · rw [extractAll, dif_pos hlen]
    rw [List.length_eq_zero] at hlen
    rw [hlen]
  · rw [extractAll, dif_neg hlen]
    have hne : h.data ≠ [] := fun he => hlen (by rw [he]; rfl)
    obtain ⟨hret, hlen1, hperm, _, _⟩ := heap_extract_spec h hne
    have ih := extractAll_perm (heap_extract h).2
    rw [hret, Option.getD_some]
    exact (ih.cons _).trans hperm
termination_by h.data.length
decreasing_by
  have hspec := (heap_extract_spec h (fun he => hlen (by rw [he]; rfl))).2.1
  omega

/-- Spec §8.3: repeated extraction yields the elements in non-increasing
priority order — no later element outranks an earlier one. -/
theorem extractAll_sorted [Inhabited α] (h : Heap α) (hc : CmpValid h.cmp)
    (hh : heapProp h.cmp h.data) :
    List.Pairwise (fun a b => h.cmp b a ≤ 0) (extractAll h) := by
  by_cases hlen : h.data.length = 0
  · rw [extractAll, dif_pos hlen]
    exact List.Pairwise.nil
  · rw [extractAll, dif_neg hlen]
    have hne : h.data ≠ [] := fun he => hlen (by rw [he]; rfl)
    obtain ⟨hret, hlen1, hperm, hcmpeq, _⟩ := heap_extract_spec h hne
    have hh' : heapProp h.cmp (heap_extract h).2.data := heap_extract_heapProp hc hh
    have ih := extractAll_sorted (heap_extract h).2 (by rw [hcmpeq]; exact hc)
      (by rw [hcmpeq]; exact hh')
    rw [hcmpeq] at ih
    rw [hret, Option.getD_some]
    refine List.Pairwise.cons ?_ ih
    intro y hy
    have hy1 : y ∈ h.data :=
      hperm.mem_iff.mp
        (List.mem_cons_of_mem _ ((extractAll_perm (heap_extract h).2).mem_iff.mp hy))
    obtain ⟨j, hj, rfl⟩ := List.mem_iff_getElem.mp hy1
    rw [← hGet_eq_getElem _ hj]
    exact heapProp_root_max hc hh j hj
termination_by h.data.length
decreasing_by
  have hspec := (heap_extract_spec h (fun he => hlen (by rw [he]; rfl))).2.1
  omega

/-! ### `heap_sort` -/

theorem drop_set_eq_cons [Inhabited α] (arr : List α) (k : Nat) (x : α)
    (hk : k < arr.length) :
    (arr.set k x).drop k = x :: arr.drop (k + 1) := by
  have hlt : (arr.take k).length = k := by
    rw [List.length_take]
    omega
  have hgen : ∀ (l1 l2 : List α), l1.length = k → (l1 ++ l2).drop k = l2 := by
    intro l1 l2 hl
    rw [← hl, List.drop_left]
  rw [List.set_eq_take_cons_drop x hk, hgen _ _ hlt]

/-- The back-to-front write loop of `heap_sort` produces the reverse of the
extraction sequence on the written prefix. -/
theorem sortLoop_eq [Inhabited α] :
    ∀ (k : Nat) (h : Heap α) (arr : List α), h.data.length = k → k ≤ arr.length →
      sortLoop k h arr = (extractAll h).reverse ++ arr.drop k
  | 0, h, arr, hk, _ => by
    rw [sortLoop, extractAll, dif_pos hk, List.drop_zero]
    rfl
  | k + 1, h, arr, hk, hle => by
    have hlen : ¬ h.data.length = 0 := by omega
    have hne : h.data ≠ [] := fun he => hlen (by rw [he]; rfl)
    obtain ⟨hret, hlen1, _, _, _⟩ := heap_extract_spec h hne
    have ih := sortLoop_eq k (heap_extract h).2 (arr.set k ((heap_extract h).1.getD default))
      (by omega) (by rw [List.length_set]; omega)
    have hEA : extractAll h
        = (heap_extract h).1.getD default :: extractAll (heap_extract h).2 := by
      rw [extractAll, dif_neg hlen]
    rw [sortLoop, ih, hEA, drop_set_eq_cons arr k _ (by omega),
      List.reverse_cons, List.append_assoc]
    rfl

/-- `heap_sort`, success path: the array becomes the reversed extraction
sequence of the built heap. -/
theorem heap_sort_eq [Inhabited α] (arr : List α) (cmp : α → α → Int) :
    heap_sort true arr cmp = (extractAll (heap_build arr cmp)).reverse := by
  rw [heap_sort, if_pos rfl,
    sortLoop_eq arr.length (heap_build arr cmp) arr (heap_build_length arr cmp) (le_refl _),
    List.drop_length, List.append_nil]

/-- Spec §8.5, permutation half: `heap_sort` permutes the input. -/
theorem heap_sort_perm [Inhabited α] (arr : List α) (cmp : α → α → Int) :
    List.Perm (heap_sort true arr cmp) arr := by
  rw [heap_sort_eq]
  exact ((List.reverse_perm _).trans (extractAll_perm _)).trans (heap_build_perm arr cmp)

/-- Spec §8.5, ordering half: front-to-back, no element outranks a later
one. -/
theorem heap_sort_sorted [Inhabited α] (arr : List α) {cmp : α → α → Int}
    (hc : CmpValid cmp) :
    List.Pairwise (fun a b => cmp a b ≤ 0) (heap_sort true arr cmp) := by
  rw [heap_sort_eq, List.pairwise_reverse]
  exact extractAll_sorted (heap_build arr cmp) hc (heap_build_heapProp hc arr)

/-! ### Sequences of public mutations (for the reachable-state invariant) -/

/-- One public mutation of §4.3: `heap_insert` (with its allocation oracle),
`heap_extract`, `heap_replace`, or a fresh `heap_build`. -/
inductive HeapOp (α : Type) where
  | insert (allocOk : Bool) (item : α)
  | extract
  | replace (item : α)
  | build (arr : List α)

/-- Apply one public mutation to the current heap (the comparator of every
heap in a run is the one the run was started with). -/
def applyOp [Inhabited α] (cmp : α → α → Int) (h : Heap α) : HeapOp α → Heap α
  | .insert ok x => (heap_insert ok h x).2
  | .extract => (heap_extract h).2
  | .replace x => (heap_replace h x).2
  | .build arr => heap_build arr cmp

/-- Run a sequence of public mutations left to right. -/
def runOps [Inhabited α] (cmp : α → α → Int) (h : Heap α) (ops : List (HeapOp α)) : Heap α :=
  ops.foldl (applyOp cmp) h

theorem heap_extract_cmp [Inhabited α] (h : Heap α) :
    (heap_extract h).2.cmp = h.cmp := by
  by_cases hlen : h.data.length = 0 <;> simp [heap_extract, hlen]

theorem heap_replace_cmp [Inhabited α] (h : Heap α) (x : α) :
    (heap_replace h x).2.cmp = h.cmp := by
  by_cases hlen : h.data.length = 0 <;> simp [heap_replace, hlen]

theorem applyOp_inv [Inhabited α] {cmp : α → α → Int} (hc : CmpValid cmp)
    (h : Heap α) (op : HeapOp α) (hcmp : h.cmp = cmp) (hh : heapProp cmp h.data) :
    (applyOp cmp h op).cmp = cmp ∧ heapProp cmp (applyOp cmp h op).data := by
  subst hcmp
  cases op with
  | insert ok x =>
    exact ⟨heap_insert_cmp ok h x, heap_insert_heapProp h hc ok x hh⟩
  | extract =>
    exact ⟨heap_extract_cmp h, heap_extract_heapProp hc hh⟩
  | replace x =>
    exact ⟨heap_replace_cmp h x, heap_replace_heapProp hc x hh⟩
  | build arr =>
    exact ⟨rfl, heap_build_heapProp hc arr⟩

theorem runOps_inv [Inhabited α] {cmp : α → α → Int} (hc : CmpValid cmp) :
    ∀ (ops : List (HeapOp α)) (h : Heap α), h.cmp = cmp → heapProp cmp h.data →
      (runOps cmp h ops).cmp = cmp ∧ heapProp cmp (runOps cmp h ops).data
  | [], h, hcmp, hh => ⟨hcmp, hh⟩
  | op :: ops, h, hcmp, hh => by
    obtain ⟨h1, h2⟩ := applyOp_inv hc h op hcmp hh
    exact runOps_inv hc ops (applyOp cmp h op) h1 h2

/-! ### Further operation-level helpers for the claims -/

/-- With a succeeding allocator, `heap_insert` always succeeds and appends the
item at index `size` before sifting up. -/
theorem heap_insert_true_spec [Inhabited α] (h : Heap α) (x : α) :
    (heap_insert true h x).1 = 0 ∧
    (heap_insert true h x).2.data = siftUp h.cmp (h.data ++ [x]) h.data.length := by
  by_cases hsz : h.data.length = h.capacity
  · by_cases hcap : h.capacity * 2 ≤ h.capacity <;>
      simp [heap_insert, heap_reserve, hsz, hcap]
  · simp [heap_insert, hsz]

theorem set_zero_eq_cons_drop (l : List α) (x : α) (hne : l ≠ []) :
    l.set 0 x = x :: l.drop 1 := by
  rcases l with _ | ⟨a, rest⟩
  · exact absurd rfl hne
  · rfl

theorem cons_hGet_drop [Inhabited α] (l : List α) (hne : l ≠ []) :
    l = hGet l 0 :: l.drop 1 := by
  rcases l with _ | ⟨a, rest⟩
  · exact absurd rfl hne
  · rfl

/-! ## The claims -/

/-- C1: for every heap reachable from an empty (`heap_create`) or built
(`heap_build`) heap by any sequence of the public mutations insert, extract,
replace, and build, the heap property holds when each operation returns —
for every index `i` with `1 ≤ i < size`, `cmp (data[i]) (data[parent i]) ≤ 0`
— and `heap_validate` returns true on such a heap.  The comparator satisfies
its §3 contract (`CmpValid`). -/
theorem c1_heap_property_invariant [Inhabited α] {cmp : α → α → Int}
    (hc : CmpValid cmp) (init : Heap α)
    (hinit : (∃ cap, init = heap_create cmp cap) ∨ ∃ arr0, init = heap_build arr0 cmp)
    (ops : List (HeapOp α)) :
    heapProp cmp (runOps cmp init ops).data ∧
    heap_validate (runOps cmp init ops) = true := by
  have hcmp0 : init.cmp = cmp := by
    rcases hinit with ⟨cap, rfl⟩ | ⟨arr0, rfl⟩ <;> rfl
  have hhp0 : heapProp cmp init.data := by
    rcases hinit with ⟨cap, rfl⟩ | ⟨arr0, rfl⟩
    · intro j hj1 hjlen
      simp [heap_create] at hjlen
    · exact heap_build_heapProp hc arr0
  obtain ⟨h1, h2⟩ := runOps_inv hc ops init hcmp0 hhp0
  exact ⟨h2, (heap_validate_iff _).mpr (by rw [h1]; exact h2)⟩

/-- Witness for C1 at a concrete run: create, two inserts, a rebuild, an
extract and a replace over `Int` with the max-heap comparator. -/
theorem c1_heap_property_invariant_witness :
    heapProp intCmp (runOps intCmp (heap_create intCmp 0)
      [HeapOp.insert true 5, HeapOp.insert true 2, HeapOp.build [3, 1, 2],
        HeapOp.extract, HeapOp.replace 7]).data ∧
    heap_validate (runOps intCmp (heap_create intCmp 0)
      [HeapOp.insert true 5, HeapOp.insert true 2, HeapOp.build [3, 1, 2],
        HeapOp.extract, HeapOp.replace 7]) = true :=
  c1_heap_property_invariant intCmp_valid (heap_create intCmp 0)
    (Or.inl ⟨0, rfl⟩)
    [HeapOp.insert true 5, HeapOp.insert true 2, HeapOp.build [3, 1, 2],
      HeapOp.extract, HeapOp.replace 7]

/-- C2: on any heap satisfying the heap property (comparator obeying its §3
contract), repeated extraction until empty yields the elements in
non-increasing priority order — no later element outranks an earlier one —
and in particular building from `[5,2,9,1,6,7,3]` with the integer max-heap
comparator and extracting repeatedly yields `9,7,6,5,3,2,1`. -/
theorem c2_extract_nonincreasing [Inhabited α] (h : Heap α) (hc : CmpValid h.cmp)
    (hh : heapProp h.cmp h.data) :
    List.Pairwise (fun a b => h.cmp b a ≤ 0) (extractAll h) ∧
    extractAll (heap_build [5, 2, 9, 1, 6, 7, 3] intCmp) = [9, 7, 6, 5, 3, 2, 1] := by
  refine ⟨extractAll_sorted h hc hh, ?_⟩
  simp [extractAll, heap_extract, heap_build, heapifyFrom, siftDown, chooseLargest,
    listSwap, hGet, intCmp, left, right, parent]

/-- Witness for C2 at the built heap over `[5,2,9,1,6,7,3]`. -/
theorem c2_extract_nonincreasing_witness :
    List.Pairwise (fun a b => (heap_build [5, 2, 9, 1, 6, 7, 3] intCmp).cmp b a ≤ 0)
      (extractAll (heap_build [5, 2, 9, 1, 6, 7, 3] intCmp)) ∧
    extractAll (heap_build [5, 2, 9, 1, 6, 7, 3] intCmp) = [9, 7, 6, 5, 3, 2, 1] :=
  c2_extract_nonincreasing (heap_build [5, 2, 9, 1, 6, 7, 3] intCmp)
    intCmp_valid (heap_build_heapProp intCmp_valid _)

/-- C3: for every input sequence and every comparator satisfying its §3
contract (the spec's glossary defines a comparator as a strict-weak-order
function), `heap_sort` produces a permutation of the input that reads
front-to-back in ascending priority order: no element outranks a later one. -/
theorem c3_sort_perm_sorted [Inhabited α] (arr : List α) {cmp : α → α → Int}
    (hc : CmpValid cmp) :
    List.Perm (heap_sort true arr cmp) arr ∧
    List.Pairwise (fun a b => cmp a b ≤ 0) (heap_sort true arr cmp) :=
  ⟨heap_sort_perm arr cmp, heap_sort_sorted arr hc⟩

/-- Witness for C3 on the demo array. -/
theorem c3_sort_perm_sorted_witness :
    List.Perm (heap_sort true [5, 2, 9, 1, 6, 7, 3] intCmp) [5, 2, 9, 1, 6, 7, 3] ∧
    List.Pairwise (fun a b => intCmp a b ≤ 0)
      (heap_sort true [5, 2, 9, 1, 6, 7, 3] intCmp) :=
  c3_sort_perm_sorted [5, 2, 9, 1, 6, 7, 3] intCmp_valid

/-- C4 fails on the code: building from an empty array gives `capacity = 0`,
and the following insert calls `heap_reserve(h, 0 * 2)`, which is satisfied by
`capacity 0 ≥ 0` and so does not grow the buffer; the element is then stored
at index `0 ≥ capacity = 0`, past the zero-slot allocation, and the resulting
size 1 exceeds the capacity 0.  This theorem evaluates the model at that
failing input. -/
theorem c4_insert_beyond_capacity :
    (heap_insert true (heap_build ([] : List Int) intCmp) 5).1 = 0 ∧
    (heap_insert true (heap_build ([] : List Int) intCmp) 5).2.data.length = 1 ∧
    (heap_insert true (heap_build ([] : List Int) intCmp) 5).2.capacity = 0 := by
  refine ⟨?_, ?_, ?_⟩ <;>
    simp [heap_insert, heap_build, heapifyFrom, heap_reserve, siftUp]

/-- C5: on a non-empty heap obeying the heap property (comparator obeying its
§3 contract), `replace x` returns the same value as `extract` — the old
root — and leaves a heap with the same size and the same element multiset as
`extract` followed by `insert x`, with both end states satisfying the heap
property. -/
theorem c5_replace_equiv [Inhabited α] (h : Heap α) (x : α) (hne : h.data ≠ [])
    (hc : CmpValid h.cmp) (hh : heapProp h.cmp h.data) :
    (heap_replace h x).1 = (heap_extract h).1 ∧
    (heap_replace h x).2.data.length
      = (heap_insert true (heap_extract h).2 x).2.data.length ∧
    List.Perm (heap_replace h x).2.data (heap_insert true (heap_extract h).2 x).2.data ∧
    heapProp h.cmp (heap_replace h x).2.data ∧
    heapProp h.cmp (heap_insert true (heap_extract h).2 x).2.data := by
  obtain ⟨e1, e2, e3, e4, e5⟩ := heap_extract_spec h hne
  obtain ⟨r1, r2, r3, r4, r5⟩ := heap_replace_spec h x hne
  obtain ⟨i1, i2⟩ := heap_insert_true_spec (heap_extract h).2 x
  have hn1 : 1 ≤ h.data.length := List.length_pos.mpr hne
  have hperm1 : List.Perm (heap_insert true (heap_extract h).2 x).2.data
      ((heap_extract h).2.data ++ [x]) := by
    rw [i2]
    exact siftUp_perm _ _ _ (by simp)
  have hcons : List.Perm (hGet h.data 0 :: (heap_extract h).2.data)
      (hGet h.data 0 :: h.data.drop 1) := by
    have hrw : hGet h.data 0 :: h.data.drop 1 = h.data := (cons_hGet_drop h.data hne).symm
    rw [hrw]
    exact e3
  have hdrop := hcons.cons_inv
  have hsetperm : List.Perm (h.data.set 0 x) ((heap_extract h).2.data ++ [x]) := by
    rw [set_zero_eq_cons_drop h.data x hne]
    exact ((List.perm_append_singleton x _).trans (hdrop.cons x)).symm
  have hh' : heapProp h.cmp (heap_extract h).2.data := heap_extract_heapProp hc hh
  have hinsHP : heapProp (heap_extract h).2.cmp
      (heap_insert true (heap_extract h).2 x).2.data :=
    heap_insert_heapProp _ (by rw [e4]; exact hc) true x (by rw [e4]; exact hh')
  rw [e4] at hinsHP
  refine ⟨by rw [r1, e1], ?_, ?_, heap_replace_heapProp hc x hh, hinsHP⟩
  · rw [r2, i2, siftUp_length, List.length_append, e2]
    simp only [List.length_cons, List.length_nil]
    omega
  · exact (r3.trans hsetperm).trans hperm1.symm

/-- Witness for C5 on the two-element heap `[2, 1]` with `x = 5`. -/
theorem c5_replace_equiv_witness :
    (heap_replace (Heap.mk [2, 1] 2 intCmp) 5).1
      = (heap_extract (Heap.mk [2, 1] 2 intCmp)).1 ∧
    (heap_replace (Heap.mk [2, 1] 2 intCmp) 5).2.data.length
      = (heap_insert true (heap_extract (Heap.mk [2, 1] 2 intCmp)).2 5).2.data.length ∧
    List.Perm (heap_replace (Heap.mk [2, 1] 2 intCmp) 5).2.data
      (heap_insert true (heap_extract (Heap.mk [2, 1] 2 intCmp)).2 5).2.data ∧
    heapProp (Heap.mk [2, 1] 2 intCmp).cmp
      (heap_replace (Heap.mk [2, 1] 2 intCmp) 5).2.data ∧
    heapProp (Heap.mk [2, 1] 2 intCmp).cmp
      (heap_insert true (heap_extract (Heap.mk [2, 1] 2 intCmp)).2 5).2.data :=
  c5_replace_equiv (Heap.mk [2, 1] 2 intCmp) 5 (by decide) intCmp_valid
    ((heap_validate_iff (Heap.mk [2, 1] 2 intCmp)).mp (by decide))

/-- C6: on a heap of size zero, `heap_extract`, `heap_replace` and `heap_peek`
return the absence signal (`none`/`NULL`) rather than an error or a stored
element, and extract and replace leave the heap structurally untouched. -/
theorem c6_empty_signals [Inhabited α] (h : Heap α) (x : α)
    (hempty : heap_size h = 0) :
    heap_peek h = none ∧ heap_extract h = (none, h) ∧ heap_replace h x = (none, h) := by
  have hlen : h.data.length = 0 := hempty
  refine ⟨?_, ?_, ?_⟩ <;> simp [heap_peek, heap_extract, heap_replace, hlen]

/-- Witness for C6 on a freshly created empty heap. -/
theorem c6_empty_signals_witness :
    heap_peek (heap_create intCmp 16) = none ∧
    heap_extract (heap_create intCmp 16) = (none, heap_create intCmp 16) ∧
    heap_replace (heap_create intCmp 16) 0 = (none, heap_create intCmp 16) :=
  c6_empty_signals (heap_create intCmp 16) 0 rfl

/-- C7: when insert is called with `size = capacity`, a successful insert
doubles the capacity and only then places the element (the new contents are
the old ones plus the item); when the growth reallocation is actually
attempted (`capacity > 0`, so `capacity * 2 > capacity`) and fails, insert
returns `-1` with the heap in exactly its prior state.  (With `capacity = 0`
— reachable only through the C4 bug path — `heap_reserve(0)` performs no
reallocation, so no allocation failure is possible there; `2 * 0 = 0` keeps
the doubling equation.) -/
theorem c7_insert_growth_failure [Inhabited α] (h : Heap α) (x : α)
    (hsz : h.data.length = h.capacity) :
    ((heap_insert true h x).1 = 0 ∧
      (heap_insert true h x).2.capacity = 2 * h.capacity ∧
      List.Perm (heap_insert true h x).2.data (h.data ++ [x])) ∧
    (0 < h.capacity → heap_insert false h x = (-1, h)) := by
  constructor
  · obtain ⟨hi1, hi2⟩ := heap_insert_true_spec h x
    refine ⟨hi1, ?_, ?_⟩
    · by_cases hcap : h.capacity * 2 ≤ h.capacity
      · have hc0 : h.capacity = 0 := by omega
        simp [heap_insert, heap_reserve, hsz, hcap, hc0]
      · simp only [heap_insert, heap_reserve, if_pos hsz, if_neg hcap, if_pos rfl]
        simp
        omega
    · rw [hi2]
      exact siftUp_perm _ _ _ (by simp)
  · intro hpos
    have hcap : ¬ h.capacity * 2 ≤ h.capacity := by omega
    simp [heap_insert, heap_reserve, hsz, hcap]

/-- Witness for C7 on the full three-element heap `[3, 1, 2]`
(`size = capacity = 3`). -/
theorem c7_insert_growth_failure_witness :
    ((heap_insert true (Heap.mk [3, 1, 2] 3 intCmp) 9).1 = 0 ∧
      (heap_insert true (Heap.mk [3, 1, 2] 3 intCmp) 9).2.capacity
        = 2 * (Heap.mk [3, 1, 2] 3 intCmp).capacity ∧
      List.Perm (heap_insert true (Heap.mk [3, 1, 2] 3 intCmp) 9).2.data
        ((Heap.mk [3, 1, 2] 3 intCmp).data ++ [9])) ∧
    (0 < (Heap.mk [3, 1, 2] 3 intCmp).capacity →
      heap_insert false (Heap.mk [3, 1, 2] 3 intCmp) 9
        = (-1, Heap.mk [3, 1, 2] 3 intCmp)) :=
  c7_insert_growth_failure (Heap.mk [3, 1, 2] 3 intCmp) 9 rfl

/-- C8: `heap_build` on `n` elements allocates exactly `n` capacity, copies
the `n` references (the built contents are a permutation of the input), sets
the size to `n`, keeps the given comparator, and — for a comparator obeying
its §3 contract — produces a heap on which `heap_validate` returns true.  The
bottom-up sift order (`n/2 - 1` down to `0` inclusive) is the definition of
`heapifyFrom`. -/
theorem c8_build_spec [Inhabited α] (arr : List α) {cmp : α → α → Int}
    (hc : CmpValid cmp) :
    (heap_build arr cmp).capacity = arr.length ∧
    (heap_build arr cmp).data.length = arr.length ∧
    List.Perm (heap_build arr cmp).data arr ∧
    (heap_build arr cmp).cmp = cmp ∧
    heap_validate (heap_build arr cmp) = true :=
  ⟨rfl, heap_build_length arr cmp, heap_build_perm arr cmp, rfl,
    (heap_validate_iff _).mpr (heap_build_heapProp hc arr)⟩

/-- Witness for C8 on the demo array. -/
theorem c8_build_spec_witness :
    (heap_build [5, 2, 9, 1, 6, 7, 3] intCmp).capacity = [5, 2, 9, 1, 6, 7, 3].length ∧
    (heap_build [5, 2, 9, 1, 6, 7, 3] intCmp).data.length = [5, 2, 9, 1, 6, 7, 3].length ∧
    List.Perm (heap_build [5, 2, 9, 1, 6, 7, 3] intCmp).data [5, 2, 9, 1, 6, 7, 3] ∧
    (heap_build [5, 2, 9, 1, 6, 7, 3] intCmp).cmp = intCmp ∧
    heap_validate (heap_build [5, 2, 9, 1, 6, 7, 3] intCmp) = true :=
  c8_build_spec ([5, 2, 9, 1, 6, 7, 3] : List Int) intCmp_valid

/-- C9: on a `NULL` heap handle, `heap_peek`, `heap_extract` and
`heap_replace` return the absence signal, `heap_size` returns 0,
`heap_validate` returns false, and `heap_clear` and `heap_destroy` have no
effect — each guard fires before any dereference. -/
theorem c9_null_handle :
    heap_peekP (none : Option (Heap Int)) = none ∧
    heap_extractP (none : Option (Heap Int)) = (none, none) ∧
    heap_replaceP (none : Option (Heap Int)) 0 = (none, none) ∧
    heap_sizeP (none : Option (Heap Int)) = 0 ∧
    heap_validateP (none : Option (Heap Int)) = false ∧
    heap_clearP (none : Option (Heap Int)) = none ∧
    heap_destroyP (none : Option (Heap Int)) = () :=
  ⟨rfl, rfl, rfl, rfl, rfl, rfl, rfl⟩

/-- C10: when the transient build inside `heap_sort` fails, `heap_sort`
returns with the input array entirely unchanged; the C function's return type
is `void`, so — as the model's result being only the array reflects — no
error reaches the caller. -/
theorem c10_sort_build_failure [Inhabited α] (arr : List α) (cmp : α → α → Int) :
    heap_sort false arr cmp = arr := by
  simp [heap_sort]

end HeapC
